import Mathlib

/-!
# Verification of the object-store-python core semantics

Shallow embedding of the `object_store` package: the Path model, the
store operations, and the thin Python wrapper layer
(`object_store/__init__.py`, `object_store/arrow.py`). The Rust-backed
`_internal` module is not part of the Python sources; its operations are
modelled from the specification (each such definition is marked
`Modelled from the spec:`). Strings are embedded as lists of characters,
byte buffers as lists of naturals.
-/

set_option autoImplicit false

/-- A raw string, embedded as its list of characters. -/
abbrev Str := List Char

/-- A path segment: a run of characters between `/` delimiters. -/
abbrev Seg := List Char

/-- A normalized path: its ordered list of segments. -/
abbrev PathT := List Seg

/-- Splitting accumulator: walks the characters, cutting at every `/`.
Mirrors splitting a raw key on the `/` delimiter. -/
def splitAux : Str → Str → List Str
  | [], acc => [acc.reverse]
  | c :: cs, acc => if c = '/' then acc.reverse :: splitAux cs [] else splitAux cs (c :: acc)

/-- Split a raw string on `/`, keeping empty pieces. -/
def splitOnSlash (s : Str) : List Str := splitAux s []

/-- Modelled from the spec: the `Path` constructor of the Rust `_internal`
module (absent from the Python sources) splits the raw string on `/` and
discards empty segments, so `"/a//b/"` and `"a/b"` normalize identically. -/
def Path.parse (s : Str) : PathT := (splitOnSlash s).filter (fun seg => !seg.isEmpty)

/-- Modelled from the spec: `Path.to_string` rejoins the segments with `/`,
with no leading or trailing delimiter. -/
def Path.toStr : PathT → Str
  | [] => []
  | [seg] => seg
  | seg :: rest => seg ++ '/' :: Path.toStr rest

/-- Full normalization of a raw string: parse, then print back. -/
def Path.normalize (s : Str) : Str := Path.toStr (Path.parse s)

/-- Modelled from the spec: `Path.is_prefix_of` holds iff the other path's
segment sequence starts with all of this path's segments, the match ending
at a segment boundary. -/
def Path.is_prefix_of (p q : PathT) : Bool := List.isPrefixOf p q

/-- A segment invariant: every segment a parse produces is non-empty and
contains no `/`. -/
abbrev segOk (seg : Seg) : Prop := seg ≠ [] ∧ '/' ∉ seg

theorem Path.toStr_cons₂ (a b : Seg) (rest : List Seg) :
    Path.toStr (a :: b :: rest) = a ++ '/' :: Path.toStr (b :: rest) := rfl

theorem splitAux_no_slash (s acc : Str) (h : '/' ∉ s) :
    splitAux s acc = [acc.reverse ++ s] := by
  induction s generalizing acc with
  | nil => simp [splitAux]
  | cons c cs ih =>
    have hc : c ≠ '/' := fun hc => h (hc ▸ List.mem_cons_self c cs)
    have hcs : '/' ∉ cs := fun hm => h (List.mem_cons_of_mem _ hm)
    simp [splitAux, hc, ih _ hcs]

theorem splitAux_append_slash (s₁ s₂ acc : Str) (h : '/' ∉ s₁) :
    splitAux (s₁ ++ '/' :: s₂) acc = (acc.reverse ++ s₁) :: splitAux s₂ [] := by
  induction s₁ generalizing acc with
  | nil => simp [splitAux]
  | cons c cs ih =>
    have hc : c ≠ '/' := fun hc => h (hc ▸ List.mem_cons_self c cs)
    have hcs : '/' ∉ cs := fun hm => h (List.mem_cons_of_mem _ hm)
    simp [splitAux, hc, ih _ hcs]

theorem mem_splitAux_no_slash (s : Str) :
    ∀ (acc seg : Str), '/' ∉ acc → seg ∈ splitAux s acc → '/' ∉ seg := by
  induction s with
  | nil =>
    intro acc seg hacc hm
    simp [splitAux] at hm
    subst hm
    simpa using hacc
  | cons c cs ih =>
    intro acc seg hacc hm
    by_cases hc : c = '/'
    · simp [splitAux, hc] at hm
      rcases hm with hm | hm
      · subst hm; simpa using hacc
      · exact ih [] seg (by simp) hm
    · simp [splitAux, hc] at hm
      refine ih (c :: acc) seg ?_ hm
      intro hmem
      rcases List.mem_cons.mp hmem with h1 | h1
      · exact hc h1.symm
      · exact hacc h1

/-- Every segment produced by `Path.parse` is non-empty and `/`-free. -/
theorem parse_segOk (s : Str) : ∀ seg ∈ Path.parse s, segOk seg := by
  intro seg hm
  unfold Path.parse at hm
  rw [List.mem_filter] at hm
  refine ⟨?_, ?_⟩
  · intro hnil
    subst hnil
    simp at hm
  · exact mem_splitAux_no_slash s [] seg (by simp) hm.1

/-- Printing a list of good segments and re-parsing recovers the segments. -/
theorem parse_toStr (p : PathT) (h : ∀ seg ∈ p, segOk seg) :
    Path.parse (Path.toStr p) = p := by
  induction p with
  | nil => rfl
  | cons a rest ih =>
    have ha := h a (List.mem_cons_self a rest)
    have hae : a.isEmpty = false := by
      cases a with
      | nil => exact absurd rfl ha.1
      | cons c cs => rfl
    cases rest with
    | nil =>
      unfold Path.parse splitOnSlash
      rw [Path.toStr, splitAux_no_slash a [] ha.2]
      simp [List.filter_cons, hae]
    | cons b rest' =>
      have hrest : ∀ seg ∈ b :: rest', segOk seg :=
        fun seg hm => h seg (List.mem_cons_of_mem _ hm)
      unfold Path.parse splitOnSlash
      rw [Path.toStr_cons₂, splitAux_append_slash a _ [] ha.2]
      have ihr := ih hrest
      unfold Path.parse splitOnSlash at ihr
      simp only [List.nil_append, List.reverse_nil, List.filter_cons, hae,
        Bool.not_false, if_true]
      rw [ihr]

/-- Parsing is stable under one round of print-and-reparse. -/
theorem Path.parse_normalize (s : Str) : Path.parse (Path.normalize s) = Path.parse s :=
  parse_toStr (Path.parse s) (parse_segOk s)

/-- Normalization is idempotent. -/
theorem Path.normalize_idem (s : Str) :
    Path.normalize (Path.normalize s) = Path.normalize s :=
  congrArg Path.toStr (Path.parse_normalize s)

/-- A byte buffer, embedded as a list of byte values. -/
abbrev Bytes := List Nat

/-- The uniform error taxonomy surfaced to callers. -/
inductive Err
  | NotFound
  | AlreadyExists
  | InvalidRange
  | InvalidPath
  | InvalidConfig
deriving DecidableEq

/-- Metadata describing one stored object: its location and size. -/
structure ObjectMeta where
  location : PathT
  size : Nat
deriving DecidableEq

/-- The outcome of a delimiter-aware listing: leaf objects and
directory-like common prefixes among the direct children. -/
structure ListResult where
  objects : List ObjectMeta
  common_prefixes : List PathT
deriving DecidableEq

/-- A store state: the association of paths to stored byte contents. -/
abbrev Store := List (PathT × Bytes)

/-- Look up the contents stored at a path. -/
def Store.find : Store → PathT → Option Bytes
  | [], _ => none
  | (q, b) :: rest, p => if q = p then some b else Store.find rest p

/-- Modelled from the spec: `get` of the Rust `_internal` store (absent from
the Python sources) returns the stored bytes, failing with `NotFound` when
the object is absent. -/
def Store.getOp (s : Store) (p : PathT) : Except Err Bytes :=
  match Store.find s p with
  | some b => .ok b
  | none => .error .NotFound

/-- Modelled from the spec: `head` returns the object's metadata, failing
with `NotFound` when the object is absent. -/
def Store.headOp (s : Store) (p : PathT) : Except Err ObjectMeta :=
  match Store.find s p with
  | some b => .ok ⟨p, b.length⟩
  | none => .error .NotFound

/-- Modelled from the spec: `put` has full overwrite semantics — it creates
the object if absent and replaces it if present. -/
def Store.putOp (s : Store) (p : PathT) (b : Bytes) : Store :=
  (p, b) :: s.filter (fun e => !decide (e.1 = p))

/-- Modelled from the spec: `delete` removes the object, failing with
`NotFound` when it is absent; the state is unchanged on error. -/
def Store.deleteOp (s : Store) (p : PathT) : Except Err Unit × Store :=
  match Store.find s p with
  | some _ => (.ok (), s.filter (fun e => !decide (e.1 = p)))
  | none => (.error .NotFound, s)

/-- Modelled from the spec: `get_range` fails with `NotFound` when the
object is absent and with `InvalidRange` when `start` or `length` is
negative or `start + length` exceeds the object's size; otherwise it
returns exactly the requested slice, never a short read. -/
def Store.get_range (s : Store) (p : PathT) (start len : Int) : Except Err Bytes :=
  match Store.find s p with
  | none => .error .NotFound
  | some b =>
    if start < 0 ∨ len < 0 then .error .InvalidRange
    else if (b.length : Int) < start + len then .error .InvalidRange
    else .ok ((b.drop start.toNat).take len.toNat)

/-- Modelled from the spec: `list` returns every object whose location the
given prefix is a segment-prefix of, or all objects when no prefix is
given. -/
def Store.listOp (s : Store) (pre : Option PathT) : List ObjectMeta :=
  match pre with
  | none => s.map (fun e => ⟨e.1, e.2.length⟩)
  | some q => (s.filter (fun e => Path.is_prefix_of q e.1)).map (fun e => ⟨e.1, e.2.length⟩)

/-- Modelled from the spec: `list_with_delimiter` partitions the direct
children one segment below the prefix (or below the root) into leaf
objects and deduplicated common prefixes. -/
def Store.list_with_delimiter (s : Store) (pre : Option PathT) : ListResult :=
  let q := pre.getD []
  let n := q.length
  let leaves := s.filter (fun e => Path.is_prefix_of q e.1 && decide (e.1.length = n + 1))
  let deeper := s.filter (fun e => Path.is_prefix_of q e.1 && decide (n + 2 ≤ e.1.length))
  { objects := leaves.map (fun e => ⟨e.1, e.2.length⟩)
    common_prefixes := (deeper.map (fun e => q ++ [e.1.getD n []])).dedup }

/-- Modelled from the spec: `copy` overwrites the destination with the
source's contents, failing with `NotFound` when the source is absent. -/
def Store.copyOp (s : Store) (src dst : PathT) : Except Err Unit × Store :=
  match Store.find s src with
  | none => (.error .NotFound, s)
  | some b => (.ok (), Store.putOp s dst b)

/-- Modelled from the spec: `copy_if_not_exists` fails with `AlreadyExists`
when the destination already holds an object, leaving the state unchanged;
otherwise it behaves as `copy`. -/
def Store.copy_if_not_exists (s : Store) (src dst : PathT) : Except Err Unit × Store :=
  match Store.find s dst with
  | some _ => (.error .AlreadyExists, s)
  | none =>
    match Store.find s src with
    | none => (.error .NotFound, s)
    | some b => (.ok (), Store.putOp s dst b)

/-- Modelled from the spec: `rename` is equivalent to copy-then-delete-source
— it overwrites the destination and then deletes the source without
verifying the deleted object's identity; it fails with `NotFound` when the
source is absent. -/
def Store.renameOp (s : Store) (src dst : PathT) : Except Err Unit × Store :=
  match Store.find s src with
  | none => (.error .NotFound, s)
  | some b =>
    (.ok (), (Store.putOp s dst b).filter (fun e => !decide (e.1 = src)))

theorem Store.find_filter_self (s : Store) (p : PathT) :
    Store.find (s.filter (fun e => !decide (e.1 = p))) p = none := by
  induction s with
  | nil => rfl
  | cons e rest ih =>
    by_cases he : e.1 = p
    · simp [List.filter_cons, he, ih]
    · simp [List.filter_cons, he, Store.find, ih]

theorem Store.find_filter_other (s : Store) (p q : PathT) (h : q ≠ p) :
    Store.find (s.filter (fun e => !decide (e.1 = p))) q = Store.find s q := by
  induction s with
  | nil => rfl
  | cons e rest ih =>
    obtain ⟨k, b⟩ := e
    by_cases he : k = p
    · subst he
      have hk : k ≠ q := fun hpq => h hpq.symm
      simp [List.filter_cons, Store.find, hk, ih]
    · by_cases heq : k = q
      · subst heq
        simp [List.filter_cons, he, Store.find]
      · simp [List.filter_cons, he, Store.find, heq, ih]

theorem Store.find_putOp_self (s : Store) (p : PathT) (b : Bytes) :
    Store.find (Store.putOp s p b) p = some b := by
  simp [Store.putOp, Store.find]

theorem Store.find_putOp_other (s : Store) (p q : PathT) (b : Bytes) (h : q ≠ p) :
    Store.find (Store.putOp s p b) q = Store.find s q := by
  have hk : p ≠ q := fun hpq => h hpq.symm
  simp only [Store.putOp, Store.find, if_neg hk]
  exact Store.find_filter_other s p q h

/-- A loosely-typed location reference as accepted by the Python wrapper:
a raw string, a list of raw segments, or an existing Path
(`PathLike = str | List[str] | Path` in `object_store/__init__.py`). -/
inductive PathLike
  | ofStr (s : Str)
  | ofSegs (l : List Str)
  | ofPath (p : PathT)
deriving DecidableEq

/-- Python truthiness of a `PathLike` value: empty strings and empty lists
are falsy, `Path` objects are always truthy. -/
def PathLike.truthy : PathLike → Bool
  | .ofStr s => !s.isEmpty
  | .ofSegs l => !l.isEmpty
  | .ofPath _ => true

/-- `_as_path` from `object_store/__init__.py`: a raw string is parsed, a
list of segments is joined with the `/` delimiter and parsed, and a Path
is passed through unchanged. -/
def as_path : PathLike → PathT
  | .ofStr s => Path.parse s
  | .ofSegs l => Path.parse (Path.toStr l)
  | .ofPath p => p

/-- The effective backend filter computed by `ObjectStore.list` and
`ObjectStore.list_with_delimiter`: the line
`prefix_ = _as_path(prefix) if prefix else None` converts the argument
only when it is truthy. -/
def ObjectStore.pre_arg : Option PathLike → Option PathT
  | none => none
  | some pl => if PathLike.truthy pl then some (as_path pl) else none

/-- `ObjectStore.list` from `object_store/__init__.py`: converts a truthy
argument and delegates to the backend list operation. -/
def ObjectStore.list (s : Store) (pre : Option PathLike) : List ObjectMeta :=
  Store.listOp s (ObjectStore.pre_arg pre)

/-- `ObjectStore.list_with_delimiter` from `object_store/__init__.py`:
converts a truthy argument and delegates to the backend operation. -/
def ObjectStore.list_with_delimiter (s : Store) (pre : Option PathLike) : ListResult :=
  Store.list_with_delimiter s (ObjectStore.pre_arg pre)

/-- A call into the internal (Rust) `_ArrowFileSystemHandler`, identified
by the method invoked and its arguments. -/
inductive InternalCall
  | openInputFile (path : Str)
  | openInputStream (path : Str)
  | openOutputStream (path : Str) (md : Option (List (Str × Str)))
  | getFileInfoSelector (base_dir : Str) (allow_not_found recursive : Bool)
deriving DecidableEq

/-- A `pyarrow.fs.FileSelector`, carrying the fields the adapter unpacks. -/
structure FileSelector where
  base_dir : Str
  allow_not_found : Bool
  recursive : Bool
deriving DecidableEq

/-- A `pyarrow.PythonFile` wrapping the handle produced by an internal
handler call. -/
structure PythonFile where
  handle : InternalCall
deriving DecidableEq

/-- `ArrowFileSystemHandler.open_input_file` from `object_store/arrow.py`:
wraps the internal handler's `open_input_file` result. -/
def ArrowFileSystemHandler.open_input_file (path : Str) : PythonFile :=
  ⟨InternalCall.openInputFile path⟩

/-- `ArrowFileSystemHandler.open_input_stream` from `object_store/arrow.py`:
the body calls `_ArrowFileSystemHandler.open_input_file(self, path)`. -/
def ArrowFileSystemHandler.open_input_stream (path : Str) : PythonFile :=
  ⟨InternalCall.openInputFile path⟩

/-- `ArrowFileSystemHandler.open_output_stream` from `object_store/arrow.py`:
wraps the internal handler's `open_output_stream` result. -/
def ArrowFileSystemHandler.open_output_stream (path : Str)
    (md : Option (List (Str × Str))) : PythonFile :=
  ⟨InternalCall.openOutputStream path md⟩

/-- `ArrowFileSystemHandler.get_file_info_selector` from
`object_store/arrow.py`: unpacks the selector's fields and delegates. -/
def ArrowFileSystemHandler.get_file_info_selector (sel : FileSelector) : InternalCall :=
  InternalCall.getFileInfoSelector sel.base_dir sel.allow_not_found sel.recursive

theorem listOp_some_eq_filter (s : Store) (q : PathT) :
    Store.listOp s (some q) =
      (Store.listOp s none).filter (fun m => Path.is_prefix_of q m.location) := by
  induction s with
  | nil => rfl
  | cons e rest ih =>
    simp only [Store.listOp] at ih ⊢
    by_cases hm : Path.is_prefix_of q e.1
    · simp [List.filter_cons, List.map_cons, hm, ih]
    · simp [List.filter_cons, List.map_cons, hm, ih]

theorem mem_listOp_none (s : Store) (m : ObjectMeta) :
    m ∈ Store.listOp s none ↔ ∃ b, (m.location, b) ∈ s ∧ m.size = b.length := by
  simp only [Store.listOp, List.mem_map]
  constructor
  · rintro ⟨e, he, rfl⟩
    exact ⟨e.2, he, rfl⟩
  · rintro ⟨b, hb, hsize⟩
    refine ⟨(m.location, b), hb, ?_⟩
    cases m with
    | mk loc sz => simp at hsize ⊢; exact hsize.symm

theorem is_prefix_of_iff (p q : PathT) :
    Path.is_prefix_of p q = true ↔ ∃ t, q = p ++ t := by
  rw [Path.is_prefix_of, List.isPrefixOf_iff_prefix]
  constructor
  · rintro ⟨t, rfl⟩; exact ⟨t, rfl⟩
  · rintro ⟨t, rfl⟩; exact ⟨t, rfl⟩

/-- C1: `list(q)` returns exactly the objects whose location the prefix `q`
is a segment-prefix of (the match ending at a segment boundary), `list()`
with no prefix returns every object, and `"foo/bar"` is a prefix of
`"foo/bar/x"` but not of `"foo/bar_baz/x"`. -/
theorem C1_list_segment_semantics :
    (∀ (s : Store) (q : PathT),
      Store.listOp s (some q) =
        (Store.listOp s none).filter (fun m => Path.is_prefix_of q m.location))
    ∧ (∀ (s : Store) (m : ObjectMeta),
      m ∈ Store.listOp s none ↔ ∃ b, (m.location, b) ∈ s ∧ m.size = b.length)
    ∧ (∀ p q : PathT, Path.is_prefix_of p q = true ↔ ∃ t, q = p ++ t)
    ∧ Path.is_prefix_of (Path.parse "foo/bar".data) (Path.parse "foo/bar/x".data) = true
    ∧ Path.is_prefix_of (Path.parse "foo/bar".data) (Path.parse "foo/bar_baz/x".data) = false :=
  ⟨listOp_some_eq_filter, mem_listOp_none, is_prefix_of_iff, by decide, by decide⟩

/-- C3: `put(p, b)` followed by `get(p)` returns exactly `b`, for every
non-empty path `p` and every byte buffer `b`. -/
theorem C3_put_get_round_trip (s : Store) (p : PathT) (b : Bytes) (_h : p ≠ []) :
    Store.getOp (Store.putOp s p b) p = .ok b := by
  simp [Store.getOp, Store.find_putOp_self]

theorem C3_put_get_round_trip_witness :
    ([['a']] : PathT) ≠ [] ∧
    Store.getOp (Store.putOp [] [['a']] []) [['a']] = .ok [] :=
  ⟨by decide, C3_put_get_round_trip [] [['a']] [] (by decide)⟩

/-- C4: after a successful `delete(p)`, both `get(p)` and `head(p)` fail
with `NotFound`; and `delete(p)` itself fails with `NotFound` when no
object exists at `p`. -/
theorem C4_delete_not_found (s : Store) (p : PathT) :
    (∀ s', Store.deleteOp s p = (.ok (), s') →
      Store.getOp s' p = .error .NotFound ∧ Store.headOp s' p = .error .NotFound)
    ∧ (Store.find s p = none → (Store.deleteOp s p).1 = .error .NotFound) := by
  constructor
  · intro s' hdel
    cases hfind : Store.find s p with
    | none => simp [Store.deleteOp, hfind] at hdel
    | some b =>
      simp only [Store.deleteOp, hfind, Prod.mk.injEq] at hdel
      rw [← hdel.2]
      exact ⟨by simp [Store.getOp, Store.find_filter_self],
        by simp [Store.headOp, Store.find_filter_self]⟩
  · intro hnone
    simp [Store.deleteOp, hnone]

theorem C4_delete_not_found_witness :
    Store.deleteOp [([['a']], [7])] [['a']] = (.ok (), ([] : Store)) ∧
    Store.getOp ([] : Store) [['a']] = .error .NotFound ∧
    Store.headOp ([] : Store) [['a']] = .error .NotFound ∧
    Store.find ([] : Store) [['b']] = none ∧
    (Store.deleteOp ([] : Store) [['b']]).1 = .error .NotFound :=
  ⟨rfl,
   ((C4_delete_not_found [([['a']], [7])] [['a']]).1 [] rfl).1,
   ((C4_delete_not_found [([['a']], [7])] [['a']]).1 [] rfl).2,
   rfl,
   (C4_delete_not_found [] [['b']]).2 rfl⟩

/-- C5: when an object already exists at `dst`, `copy_if_not_exists(src, dst)`
fails with `AlreadyExists` and the object at `dst` is unmodified. -/
theorem C5_copy_if_not_exists_already_exists (s : Store) (src dst : PathT) (b : Bytes)
    (h : Store.find s dst = some b) :
    (Store.copy_if_not_exists s src dst).1 = .error .AlreadyExists
    ∧ Store.find (Store.copy_if_not_exists s src dst).2 dst = some b := by
  simp [Store.copy_if_not_exists, h]

theorem C5_copy_if_not_exists_already_exists_witness :
    Store.find [([['d']], [9])] [['d']] = some [9] ∧
    (Store.copy_if_not_exists [([['d']], [9])] [['s']] [['d']]).1 = .error .AlreadyExists ∧
    Store.find (Store.copy_if_not_exists [([['d']], [9])] [['s']] [['d']]).2 [['d']] = some [9] :=
  ⟨rfl,
   (C5_copy_if_not_exists_already_exists [([['d']], [9])] [['s']] [['d']] [9] rfl).1,
   (C5_copy_if_not_exists_already_exists [([['d']], [9])] [['s']] [['d']] [9] rfl).2⟩

/-- C7: path normalization is idempotent, and constructing a Path from a
Path's string form yields the same Path. -/
theorem C7_normalization_round_trip :
    (∀ s : Str, Path.normalize (Path.normalize s) = Path.normalize s)
    ∧ (∀ p : PathT, (∀ seg ∈ p, segOk seg) → Path.parse (Path.toStr p) = p) :=
  ⟨Path.normalize_idem, parse_toStr⟩

theorem C7_normalization_round_trip_witness :
    (∀ seg ∈ ([['a'], ['b', 'c']] : PathT), segOk seg) ∧
    Path.parse (Path.toStr [['a'], ['b', 'c']]) = [['a'], ['b', 'c']] :=
  ⟨by decide, C7_normalization_round_trip.2 [['a'], ['b', 'c']] (by decide)⟩

/-- C9: in `object_store/arrow.py`, `open_input_stream(path)` invokes the
internal handler's `open_input_file` (a different operation from
`open_input_stream`): the adapter is not a 1:1 translation there. -/
theorem C9_open_input_stream_delegates_to_open_input_file :
    (ArrowFileSystemHandler.open_input_stream "data/x.parquet".data).handle
      = InternalCall.openInputFile "data/x.parquet".data
    ∧ InternalCall.openInputFile "data/x.parquet".data
      ≠ InternalCall.openInputStream "data/x.parquet".data := by
  exact ⟨rfl, by decide⟩

/-- C10: a falsy prefix — the empty string or the empty list — is never
converted to a Path and never passed to the backend: `list` and
`list_with_delimiter` behave exactly as with no prefix at all. -/
theorem C10_falsy_prefix_lists_all :
    (∀ s : Store,
      ObjectStore.list s (some (.ofStr [])) = ObjectStore.list s none
      ∧ ObjectStore.list s (some (.ofSegs [])) = ObjectStore.list s none
      ∧ ObjectStore.list_with_delimiter s (some (.ofStr []))
          = ObjectStore.list_with_delimiter s none
      ∧ ObjectStore.list_with_delimiter s (some (.ofSegs []))
          = ObjectStore.list_with_delimiter s none)
    ∧ ObjectStore.pre_arg (some (.ofStr [])) = none
    ∧ ObjectStore.pre_arg (some (.ofSegs [])) = none :=
  ⟨fun _ => ⟨rfl, rfl, rfl, rfl⟩, rfl, rfl⟩

/-- C2: `get_range(p, start, length)` returns exactly the requested slice
when the range lies within the object, fails with `InvalidRange` (never a
short read) when the range exceeds the object's size or a bound is
negative, and fails with `NotFound` when no object is at `p`. -/
theorem C2_get_range_bounds (s : Store) (p : PathT) (start len : Int) :
    (∀ b, Store.find s p = some b →
      (0 ≤ start → 0 ≤ len → start + len ≤ (b.length : Int) →
        Store.get_range s p start len = .ok ((b.drop start.toNat).take len.toNat))
      ∧ ((b.length : Int) < start + len ∨ start < 0 ∨ len < 0 →
        Store.get_range s p start len = .error .InvalidRange))
    ∧ (Store.find s p = none → Store.get_range s p start len = .error .NotFound) := by
  constructor
  · intro b hb
    constructor
    · intro hs hl hbound
      have h1 : ¬(start < 0 ∨ len < 0) := by
        push_neg
        exact ⟨hs, hl⟩
      simp only [Store.get_range, hb, if_neg h1, if_neg (not_lt.mpr hbound)]
    · intro hbad
      by_cases hneg : start < 0 ∨ len < 0
      · simp only [Store.get_range, hb, if_pos hneg]
      · have hover : (b.length : Int) < start + len := by
          rcases hbad with h | h | h
          · exact h
          · exact absurd (Or.inl h) hneg
          · exact absurd (Or.inr h) hneg
        simp only [Store.get_range, hb, if_neg hneg, if_pos hover]
  · intro hn
    simp [Store.get_range, hn]

theorem C2_get_range_bounds_witness :
    Store.find [([['a']], [5, 6, 7])] [['a']] = some [5, 6, 7] ∧
    Store.get_range [([['a']], [5, 6, 7])] [['a']] 1 2 = .ok [6, 7] ∧
    Store.get_range [([['a']], [5, 6, 7])] [['a']] 2 5 = .error .InvalidRange ∧
    Store.find ([] : Store) [['a']] = none ∧
    Store.get_range ([] : Store) [['a']] 0 1 = .error .NotFound :=
  ⟨rfl,
   ((C2_get_range_bounds [([['a']], [5, 6, 7])] [['a']] 1 2).1 [5, 6, 7] rfl).1
     (by decide) (by decide) (by decide),
   ((C2_get_range_bounds [([['a']], [5, 6, 7])] [['a']] 2 5).1 [5, 6, 7] rfl).2
     (Or.inl (by decide)),
   rfl,
   (C2_get_range_bounds ([] : Store) [['a']] 0 1).2 rfl⟩

/-- C6 counterexample: at src = dst = "a" on a store holding "a", `rename`
is copy-then-delete-source, so the call succeeds yet `get(dst)` fails with
`NotFound` instead of returning the pre-rename content. -/
theorem C6_rename_src_eq_dst_counterexample :
    Store.find [([['a']], [1])] [['a']] = some [1] ∧
    (Store.renameOp [([['a']], [1])] [['a']] [['a']]).1 = .ok () ∧
    Store.getOp (Store.renameOp [([['a']], [1])] [['a']] [['a']]).2 [['a']]
      = .error .NotFound :=
  ⟨rfl, rfl, rfl⟩

/-- C6 (amended): for every pair of distinct paths src ≠ dst with content b
at src, after a successful `rename(src, dst)`, `get(dst)` returns b and
`get(src)` fails with `NotFound`, regardless of whether dst previously
held an object. -/
theorem C6_rename_moves (s : Store) (src dst : PathT) (b : Bytes)
    (hne : src ≠ dst) (hsrc : Store.find s src = some b) :
    (Store.renameOp s src dst).1 = .ok ()
    ∧ Store.getOp (Store.renameOp s src dst).2 dst = .ok b
    ∧ Store.getOp (Store.renameOp s src dst).2 src = .error .NotFound := by
  have hdne : dst ≠ src := fun h => hne h.symm
  have h1 : Store.find ((Store.putOp s dst b).filter (fun e => !decide (e.1 = src))) dst
      = some b := by
    rw [Store.find_filter_other _ src dst hdne, Store.find_putOp_self]
  have h2 : Store.find ((Store.putOp s dst b).filter (fun e => !decide (e.1 = src))) src
      = none := Store.find_filter_self _ src
  refine ⟨?_, ?_, ?_⟩ <;> simp only [Store.renameOp, hsrc] <;> simp [Store.getOp, h1, h2]

theorem C6_rename_moves_witness :
    ([['a']] : PathT) ≠ [['b']] ∧
    Store.find [([['a']], [1]), ([['b']], [2])] [['a']] = some [1] ∧
    (Store.renameOp [([['a']], [1]), ([['b']], [2])] [['a']] [['b']]).1 = .ok () ∧
    Store.getOp (Store.renameOp [([['a']], [1]), ([['b']], [2])] [['a']] [['b']]).2 [['b']]
      = .ok [1] ∧
    Store.getOp (Store.renameOp [([['a']], [1]), ([['b']], [2])] [['a']] [['b']]).2 [['a']]
      = .error .NotFound :=
  ⟨by decide, rfl,
   (C6_rename_moves [([['a']], [1]), ([['b']], [2])] [['a']] [['b']] [1]
     (by decide) rfl).1,
   (C6_rename_moves [([['a']], [1]), ([['b']], [2])] [['a']] [['b']] [1]
     (by decide) rfl).2.1,
   (C6_rename_moves [([['a']], [1]), ([['b']], [2])] [['a']] [['b']] [1]
     (by decide) rfl).2.2⟩

theorem mem_lwd_objects (s : Store) (pre : Option PathT) (m : ObjectMeta) :
    m ∈ (Store.list_with_delimiter s pre).objects ↔
      ∃ b, (m.location, b) ∈ s ∧ m.size = b.length
        ∧ Path.is_prefix_of (pre.getD []) m.location = true
        ∧ m.location.length = (pre.getD []).length + 1 := by
  simp only [Store.list_with_delimiter, List.mem_map, List.mem_filter]
  constructor
  · rintro ⟨e, ⟨he, hcond⟩, rfl⟩
    simp only [Bool.and_eq_true, decide_eq_true_eq] at hcond
    exact ⟨e.2, he, rfl, hcond.1, hcond.2⟩
  · rintro ⟨b, hb, hsize, hpre, hlen⟩
    refine ⟨(m.location, b), ⟨hb, ?_⟩, ?_⟩
    · simp only [Bool.and_eq_true, decide_eq_true_eq]
      exact ⟨hpre, hlen⟩
    · cases m with
      | mk loc sz =>
        simp only [ObjectMeta.mk.injEq, eq_self_iff_true, true_and]
        exact hsize.symm

theorem mem_lwd_common (s : Store) (pre : Option PathT) (cp : PathT) :
    cp ∈ (Store.list_with_delimiter s pre).common_prefixes ↔
      ∃ loc b, (loc, b) ∈ s ∧ Path.is_prefix_of (pre.getD []) loc = true
        ∧ (pre.getD []).length + 2 ≤ loc.length
        ∧ cp = (pre.getD []) ++ [loc.getD (pre.getD []).length []] := by
  simp only [Store.list_with_delimiter, List.mem_dedup, List.mem_map, List.mem_filter]
  constructor
  · rintro ⟨e, ⟨he, hcond⟩, rfl⟩
    simp only [Bool.and_eq_true, decide_eq_true_eq] at hcond
    exact ⟨e.1, e.2, he, hcond.1, hcond.2, rfl⟩
  · rintro ⟨loc, b, hb, hpre, hlen, rfl⟩
    refine ⟨(loc, b), ⟨hb, ?_⟩, rfl⟩
    simp only [Bool.and_eq_true, decide_eq_true_eq]
    exact ⟨hpre, hlen⟩

/-- C8: `list_with_delimiter` partitions the direct children one segment
below the prefix (or below the root) into leaf objects and deduplicated
common prefixes; on a store holding exactly "a/b" and "c", `list()` has 2
entries and `list_with_delimiter()` has exactly the object "c" and exactly
the common prefix "a". -/
theorem C8_list_with_delimiter_partition :
    (∀ (s : Store) (pre : Option PathT) (m : ObjectMeta),
      m ∈ (Store.list_with_delimiter s pre).objects ↔
        ∃ b, (m.location, b) ∈ s ∧ m.size = b.length
          ∧ Path.is_prefix_of (pre.getD []) m.location = true
          ∧ m.location.length = (pre.getD []).length + 1)
    ∧ (∀ (s : Store) (pre : Option PathT) (cp : PathT),
      cp ∈ (Store.list_with_delimiter s pre).common_prefixes ↔
        ∃ loc b, (loc, b) ∈ s ∧ Path.is_prefix_of (pre.getD []) loc = true
          ∧ (pre.getD []).length + 2 ≤ loc.length
          ∧ cp = (pre.getD []) ++ [loc.getD (pre.getD []).length []])
    ∧ (∀ (s : Store) (pre : Option PathT),
      (Store.list_with_delimiter s pre).common_prefixes.Nodup)
    ∧ (Store.listOp
        [([['a'], ['b']], [99, 97, 116, 115]), ([['c']], [100, 111, 103, 115])]
        none).length = 2
    ∧ Store.list_with_delimiter
        [([['a'], ['b']], [99, 97, 116, 115]), ([['c']], [100, 111, 103, 115])]
        none = ⟨[⟨[['c']], 4⟩], [[['a']]]⟩ :=
  ⟨mem_lwd_objects, mem_lwd_common,
   fun s pre => List.nodup_dedup _, by decide, by decide⟩
